import Mathlib

/-!
Verification development for the llm-filesystem repository.

Part 1 embeds the React client (src/frontend/src/App.js) as a pure state
machine: the component state is the single `inputText` string managed by
`useState`, events are input-change and button-click, and rendering is a
record describing the DOM the component returns.

Part 2 embeds the indexing-and-query engine described by the design
document. The engine sources (src/core/indexer.py, src/core/query.py, the
file-record store and the result cache) are not present in this snapshot
of the repository, so those definitions are modelled from the spec, as
marked in their doc comments.

All theorems come after all definitions.
-/

namespace UI

/-- Component state of `App`: the single `useState` cell `inputText`
(src/frontend/src/App.js line 5). -/
structure AppState where
  inputText : String
deriving DecidableEq, Repr

/-- Initial state: `useState("")` starts the input text empty. -/
def initialState : AppState := ⟨""⟩

/-- User events the component handles: a change event on the text input
carrying `event.target.value`, and a click on the Go button. -/
inductive Event where
  | inputChange (value : String)
  | buttonClick
deriving DecidableEq, Repr

/-- `handleInputChange` (App.js lines 7-9): stores `event.target.value`
verbatim via `setInputText`. -/
def handleInputChange (s : AppState) (value : String) : AppState :=
  { s with inputText := value }

/-- `handleButtonClick` (App.js lines 11-14): the body only calls
`console.log`; no state update is performed, so the state is returned
unchanged. -/
def handleButtonClick (s : AppState) : AppState := s

/-- Side effects a handler can emit. The embedding distinguishes console
logging from HTTP traffic so that absence of network activity is
expressible. -/
inductive Effect where
  | consoleLog (msg : String)
  | httpCall (url : String)
deriving DecidableEq, Repr

/-- The effect list of `handleButtonClick` (App.js lines 11-14): exactly one
`console.log("Current input text:", inputText)` call, nothing else. -/
def handleButtonClickEffects (s : AppState) : List Effect :=
  [Effect.consoleLog ("Current input text: " ++ s.inputText)]

/-- An effect list contains an HTTP call. -/
def issuesHttpCall (effs : List Effect) : Prop :=
  ∃ u, Effect.httpCall u ∈ effs

/-- One step of the component state machine. -/
def step (s : AppState) : Event → AppState
  | Event.inputChange v => handleInputChange s v
  | Event.buttonClick => handleButtonClick s

/-- Run a sequence of events from a state. -/
def runEvents (s : AppState) (es : List Event) : AppState :=
  es.foldl step s

/-- The DOM the component returns (App.js lines 16-32): a title, a
controlled text input with a placeholder, a Go button, and no results
element of any kind. -/
structure RenderedApp where
  title : String
  inputValue : String
  inputPlaceholder : String
  showsPlaceholder : Bool
  buttonLabel : String
  results : Option (List String)
deriving DecidableEq, Repr

/-- Render function read off the JSX: the input's `value` is bound to
`inputText` (controlled input); an HTML input shows its placeholder exactly
when its value is empty; the JSX contains no results list. -/
def render (s : AppState) : RenderedApp :=
  { title := "LLM Filesystem"
    inputValue := s.inputText
    inputPlaceholder := "Describe your file."
    showsPlaceholder := s.inputText = ""
    buttonLabel := "Go"
    results := none }

/-- Value carried by the most recent input-change event of a sequence, if
any (later events are at the tail of the list, matching `runEvents`). -/
def lastChangeValue : List Event → Option String
  | [] => none
  | e :: rest =>
    match lastChangeValue rest with
    | some v => some v
    | none =>
      match e with
      | Event.inputChange v => some v
      | Event.buttonClick => none

end UI

namespace Engine

/-- Modelled from the spec: file kinds of missing src/core/file_processors
(spec section 3, `kind`: enum code, text, image, other). -/
inductive FileKind where
  | code
  | text
  | image
  | other
deriving DecidableEq, Repr

/-- Modelled from the spec: the FileRecord of the missing file-record
store (spec section 3), one per indexed file, keyed by `path`. -/
structure FileRecord where
  path : String
  content_fingerprint : Nat
  embedding : List Int
  kind : FileKind
  size_bytes : Nat
  modified_at : Nat
  last_indexed_at : Nat
  summary : String
deriving DecidableEq, Repr

/-- Modelled from the spec: the missing File Record Store (spec section
4.3) together with the IndexVersion counter (spec section 3). Records are
kept in a list ordered most-recently-written first. -/
structure Store where
  records : List FileRecord
  version : Nat
deriving DecidableEq, Repr

/-- Modelled from the spec: the index is created empty at first run
(spec section 3, index lifecycle). -/
def Store.empty : Store := ⟨[], 0⟩

/-- Modelled from the spec: point lookup of a record by path in the
missing store (spec section 4.3, CRUD keyed by path). -/
def Store.find (st : Store) (p : String) : Option FileRecord :=
  st.records.find? (fun r => r.path == p)

/-- Modelled from the spec: `get_fingerprint(path)` of the missing store
(spec section 4.3), a cheap lookup used by the change-detection diff. -/
def Store.get_fingerprint (st : Store) (p : String) : Option Nat :=
  (st.find p).map (fun r => r.content_fingerprint)

/-- Modelled from the spec: `upsert(record)` of the missing store (spec
section 4.3): atomic replace-or-insert, bumps IndexVersion. -/
def Store.upsert (st : Store) (r : FileRecord) : Store :=
  { records := r :: st.records.filter (fun q => q.path != r.path)
    version := st.version + 1 }

/-- Modelled from the spec: `remove(path)` of the missing store (spec
section 4.3): drops the record for a file no longer present, bumps
IndexVersion. -/
def Store.remove (st : Store) (p : String) : Store :=
  { records := st.records.filter (fun q => q.path != p)
    version := st.version + 1 }

/-- Modelled from the spec: the committed Indexer mutations of the missing
store (spec section 3): upserts and removes. -/
inductive StoreOp where
  | upsert (r : FileRecord)
  | remove (p : String)

/-- Apply one committed store mutation. -/
def applyOp (st : Store) : StoreOp → Store
  | StoreOp.upsert r => st.upsert r
  | StoreOp.remove p => st.remove p

/-- Modelled from the spec: a live file under the configured root as the
missing indexer observes it (spec section 4.4, step 1). -/
structure FsFile where
  path : String
  size_bytes : Nat
  mtime : Nat
  content : String
  kind : FileKind
deriving DecidableEq, Repr

/-- Modelled from the spec: the cheap content fingerprint of the missing
indexer (spec section 4.4, step 2: size + mtime). `Nat.pair` packs the two
components injectively. -/
def fingerprint (f : FsFile) : Nat := Nat.pair f.size_bytes f.mtime

/-- A path appears in a filesystem enumeration. -/
def pathListed (fs : List FsFile) (p : String) : Bool :=
  fs.any (fun f => f.path == p)

/-- A filesystem enumeration lists each path at most once. -/
def pathsNodup (fs : List FsFile) : Prop :=
  (fs.map (fun f => f.path)).Nodup

/-- Modelled from the spec: the FileRecord written by the missing indexer
after a successful extraction and embedding (spec sections 3 and 4.4):
fingerprint of the indexed file, fresh embedding, metadata from the file,
the extracted text as the summary snippet. -/
def mkRecord (f : FsFile) (text : String) (vec : List Int) (now : Nat) : FileRecord :=
  { path := f.path
    content_fingerprint := fingerprint f
    embedding := vec
    kind := f.kind
    size_bytes := f.size_bytes
    modified_at := f.mtime
    last_indexed_at := now
    summary := text }

/-- Modelled from the spec: per-file step of the missing indexer (spec
section 4.4, step 2, and the failure policy of sections 4.1 and 4.4):
unchanged fingerprint skips the file with no embedding call; otherwise the
Content Extractor runs (`extract`, `none` on ExtractionFailure), then the
Embedding Client (`embed`, `none` after exhausted retries); any failure
leaves the store untouched. The second component lists the embedding-call
inputs made. -/
def indexFile (extract : FsFile → Option String) (embed : String → Option (List Int))
    (now : Nat) (st : Store) (f : FsFile) : Store × List String :=
  if st.get_fingerprint f.path = some (fingerprint f) then (st, [])
  else
    match extract f with
    | none => (st, [])
    | some text =>
      match embed text with
      | none => (st, [text])
      | some vec => (st.upsert (mkRecord f text vec now), [text])

/-- Modelled from the spec: the missing indexer's per-file loop in
enumeration order (spec section 4.4, step 2). -/
def indexFiles (extract : FsFile → Option String) (embed : String → Option (List Int))
    (now : Nat) : Store → List FsFile → Store × List String
  | st, [] => (st, [])
  | st, f :: rest =>
    let s1 := indexFile extract embed now st f
    let s2 := indexFiles extract embed now s1.1 rest
    (s2.1, s1.2 ++ s2.2)

/-- Paths present in the store but absent from the current enumeration
(spec section 4.4, step 3). -/
def stalePaths (st : Store) (fs : List FsFile) : List String :=
  (st.records.filter (fun r => !pathListed fs r.path)).map (fun r => r.path)

/-- Modelled from the spec: pruning step of the missing indexer (spec
section 4.4, step 3): every stale path is removed. -/
def prune (st : Store) (fs : List FsFile) : Store :=
  (stalePaths st fs).foldl Store.remove st

/-- Modelled from the spec: one full or incremental indexing pass of the
missing indexer (spec section 4.4): diff-and-update every enumerated file,
then prune stale records. The second component lists the embedding-call
inputs made during the pass. -/
def indexPass (extract : FsFile → Option String) (embed : String → Option (List Int))
    (now : Nat) (st : Store) (fs : List FsFile) : Store × List String :=
  let p := indexFiles extract embed now st fs
  (prune p.1 fs, p.2)

/-- Extraction and embedding both succeed for a file. -/
def succeeds (extract : FsFile → Option String) (embed : String → Option (List Int))
    (f : FsFile) : Prop :=
  ∃ t v, extract f = some t ∧ embed t = some v

/-- Modelled from the spec: structured search filters of the missing query
engine (spec section 6: file_type, min_date, max_size). -/
structure Filters where
  file_type : Option FileKind
  min_date : Option Nat
  max_size : Option Nat
deriving DecidableEq, Repr

/-- Modelled from the spec: filter matching of the missing query engine
(spec section 4.5, step 4), with inclusive bounds as the spec's stated
default. -/
def matchesFilters (fl : Filters) (r : FileRecord) : Bool :=
  (match fl.file_type with
   | none => true
   | some k => decide (r.kind = k)) &&
  (match fl.min_date with
   | none => true
   | some d => decide (d ≤ r.modified_at)) &&
  (match fl.max_size with
   | none => true
   | some s => decide (r.size_bytes ≤ s))

/-- Modelled from the spec: the candidate set scanned by the missing query
engine (spec section 4.5, step 4): store entries passing the structured
filters. -/
def searchCandidates (st : Store) (fl : Filters) : List FileRecord :=
  st.records.filter (fun r => matchesFilters fl r)

/-- Modelled from the spec: one ranked result entry of the missing query
engine (spec section 4.5: path, score, summary; the modification time is
carried for the tie-break). -/
structure ScoredRecord where
  path : String
  score : ℚ
  modified_at : Nat
  summary : String
deriving DecidableEq, Repr

/-- Modelled from the spec: the ranking order of the missing query engine
(spec section 4.5, step 5): score descending, ties by more-recently-
modified first, then by path lexicographic order. -/
def rankedBefore (x y : ScoredRecord) : Prop :=
  y.score < x.score ∨
    (x.score = y.score ∧
      (y.modified_at < x.modified_at ∨
        (x.modified_at = y.modified_at ∧ x.path ≤ y.path)))

instance : DecidableRel rankedBefore := fun x y => by
  unfold rankedBefore
  exact inferInstance

instance : IsTrans ScoredRecord rankedBefore where
  trans := by
    intro a b c hab hbc
    rcases hab with h1 | ⟨e1, h1⟩ <;> rcases hbc with h2 | ⟨e2, h2⟩
    · exact Or.inl (lt_trans h2 h1)
    · exact Or.inl (e2 ▸ h1)
    · exact Or.inl (e1 ▸ h2)
    · refine Or.inr ⟨e1.trans e2, ?_⟩
      rcases h1 with m1 | ⟨n1, p1⟩ <;> rcases h2 with m2 | ⟨n2, p2⟩
      · exact Or.inl (lt_trans m2 m1)
      · exact Or.inl (n2 ▸ m1)
      · exact Or.inl (n1 ▸ m2)
      · exact Or.inr ⟨n1.trans n2, le_trans p1 p2⟩

instance : IsTotal ScoredRecord rankedBefore where
  total := by
    intro a b
    rcases lt_trichotomy a.score b.score with h | h | h
    · exact Or.inr (Or.inl h)
    · rcases lt_trichotomy a.modified_at b.modified_at with m | m | m
      · exact Or.inr (Or.inr ⟨h.symm, Or.inl m⟩)
      · rcases le_total a.path b.path with p | p
        · exact Or.inl (Or.inr ⟨h, Or.inr ⟨m, p⟩⟩)
        · exact Or.inr (Or.inr ⟨h.symm, Or.inr ⟨m.symm, p⟩⟩)
      · exact Or.inl (Or.inr ⟨h, Or.inl m⟩)
    · exact Or.inl (Or.inl h)

/-- Modelled from the spec: cache key of the missing result cache (spec
section 3, QueryCacheEntry): normalized query text, filter set, index
version. -/
structure CacheKey where
  query : String
  filters : Filters
  version : Nat
deriving DecidableEq, Repr

/-- Modelled from the spec: the missing result cache (spec section 4.6) as
an association list, most recent entry first. The LRU/TTL eviction policy
is not needed by any claim and is not modelled. -/
abbrev Cache := List (CacheKey × List ScoredRecord)

/-- Cache lookup. -/
def cacheGet (c : Cache) (k : CacheKey) : Option (List ScoredRecord) :=
  (c.find? (fun kv => kv.1 == k)).map (fun kv => kv.2)

/-- Cache write-through on a miss. -/
def cachePut (c : Cache) (k : CacheKey) (rs : List ScoredRecord) : Cache :=
  (k, rs) :: c

/-- Every cached value is ordered by the ranking order. -/
def CacheWF (c : Cache) : Prop :=
  ∀ kv ∈ c, List.Pairwise rankedBefore kv.2

/-- Modelled from the spec: outcomes of the missing query engine's search
(spec sections 4.5 and 7): an InvalidQuery rejection, a ServiceUnavailable
condition, or a ranked result list. -/
inductive SearchOutcome where
  | invalidQuery
  | serviceUnavailable
  | results (entries : List ScoredRecord)
deriving DecidableEq, Repr

/-- Score one candidate against the query embedding. -/
def scoreRecord (score : List Int → List Int → ℚ) (qv : List Int) (r : FileRecord) :
    ScoredRecord :=
  ⟨r.path, score qv r.embedding, r.modified_at, r.summary⟩

/-- Modelled from the spec: sort by score descending with the deterministic
tie-break, then truncate to top-K (spec section 4.5, steps 5 and 6). -/
def rankResults (topK : Nat) (scored : List ScoredRecord) : List ScoredRecord :=
  (List.insertionSort rankedBefore scored).take topK

/-- Modelled from the spec: `search(query_text, filters)` of the missing
query engine (spec section 4.5, steps 1-7): reject the empty query before
any service or store access; consult the result cache under (normalized
query, filters, IndexVersion); on a miss embed the query (`none` after
exhausted retries surfaces ServiceUnavailable), score the filtered
candidates with the similarity metric `score`, rank, truncate to top-K and
write through to the cache. -/
def search (embed : String → Option (List Int)) (score : List Int → List Int → ℚ)
    (normalize : String → String) (topK : Nat)
    (c : Cache) (st : Store) (q : String) (fl : Filters) : SearchOutcome × Cache :=
  if q = "" then (SearchOutcome.invalidQuery, c)
  else
    let key : CacheKey := ⟨normalize q, fl, st.version⟩
    match cacheGet c key with
    | some rs => (SearchOutcome.results rs, c)
    | none =>
      match embed q with
      | none => (SearchOutcome.serviceUnavailable, c)
      | some qv =>
        let ranked := rankResults topK ((searchCandidates st fl).map (scoreRecord score qv))
        (SearchOutcome.results ranked, cachePut c key ranked)

end Engine

namespace Engine

/-- Sample record of 100 bytes (spec section 8, filter correctness). -/
def rec100 : FileRecord :=
  { path := "/docs/a.txt", content_fingerprint := 1, embedding := [1, 0]
    kind := FileKind.text, size_bytes := 100, modified_at := 30
    last_indexed_at := 40, summary := "a" }

/-- Sample record of 10_000 bytes (spec section 8, filter correctness). -/
def rec10k : FileRecord :=
  { path := "/docs/b.txt", content_fingerprint := 2, embedding := [0, 1]
    kind := FileKind.text, size_bytes := 10000, modified_at := 20
    last_indexed_at := 40, summary := "b" }

/-- Sample record of 1_000_000 bytes (spec section 8, filter correctness). -/
def rec1M : FileRecord :=
  { path := "/docs/c.txt", content_fingerprint := 3, embedding := [1, 1]
    kind := FileKind.text, size_bytes := 1000000, modified_at := 10
    last_indexed_at := 40, summary := "c" }

/-- Store holding the three sample records. -/
def sizeStore : Store := ⟨[rec100, rec10k, rec1M], 1⟩

/-- The max_size=50_000 filter of spec section 8. -/
def maxSizeFilter : Filters := ⟨none, none, some 50000⟩

/-- Sample extractor: fails exactly on files whose content is "FAIL",
otherwise extracts the content verbatim. -/
def extractC : FsFile → Option String :=
  fun f => if f.content = "FAIL" then none else some f.content

/-- Sample embedding client: embeds a text as its length. -/
def embedC : String → Option (List Int) :=
  fun t => some [(t.length : Int)]

/-- Sample similarity metric: negated absolute difference of first
components. -/
def scoreC : List Int → List Int → ℚ :=
  fun a b => -((((a.headD 0) - (b.headD 0)).natAbs : Int) : ℚ)

/-- Sample live file A. -/
def fileA : FsFile := ⟨"/r/a", 3, 1, "aaa", FileKind.text⟩

/-- Sample live file B. -/
def fileB : FsFile := ⟨"/r/b", 4, 2, "bbbb", FileKind.code⟩

/-- Sample live file whose extraction fails. -/
def fileBad : FsFile := ⟨"/r/c", 4, 7, "FAIL", FileKind.text⟩

end Engine

namespace UI

/-- The state after a sequence of events holds the most recent change
value, or the starting text when no change event occurred. -/
theorem runEvents_inputText (es : List Event) :
    ∀ s : AppState, (runEvents s es).inputText = (lastChangeValue es).getD s.inputText := by
  induction es with
  | nil => intro s; rfl
  | cons e rest ih =>
    intro s
    show (runEvents (step s e) rest).inputText = _
    rw [ih (step s e)]
    cases hrest : lastChangeValue rest with
    | some v => simp [lastChangeValue, hrest]
    | none =>
      cases e with
      | inputChange v => simp [lastChangeValue, hrest, step, handleInputChange]
      | buttonClick => simp [lastChangeValue, hrest, step, handleButtonClick]

/-- C1: clicking Go, as `handleButtonClick` is written in this snapshot,
does not issue an HTTP call and the component renders no results list:
the claim that the client issues one HTTP call (or a mocked response) and
renders the returned list fails already in the initial state. -/
theorem go_click_makes_no_call_counterexample :
    ¬ issuesHttpCall (handleButtonClickEffects initialState) ∧
      (render (handleButtonClick initialState)).results = none := by
  constructor
  · rintro ⟨u, hu⟩
    simp [handleButtonClickEffects] at hu
  · rfl

/-- C1 (amended): clicking the Go button issues no HTTP call, produces no
response to render, and renders no results list; its only effect is
logging the current input text to the console. -/
theorem go_click_only_logs (s : AppState) :
    handleButtonClickEffects s = [Effect.consoleLog ("Current input text: " ++ s.inputText)] ∧
      ¬ issuesHttpCall (handleButtonClickEffects s) ∧
      (render (handleButtonClick s)).results = none := by
  refine ⟨rfl, ?_, rfl⟩
  rintro ⟨u, hu⟩
  simp [handleButtonClickEffects] at hu

/-- C8: the input is fully controlled: `handleInputChange` stores the
event value verbatim, and after any event sequence the value displayed in
the text box is exactly the value of the most recent change event. -/
theorem controlled_input :
    (∀ (s : AppState) (v : String), (handleInputChange s v).inputText = v) ∧
      ∀ (s : AppState) (es : List Event) (v : String),
        lastChangeValue es = some v → (render (runEvents s es)).inputValue = v := by
  refine ⟨fun s v => rfl, fun s es v h => ?_⟩
  show (runEvents s es).inputText = v
  rw [runEvents_inputText es s, h]
  rfl

/-- C8 witness: a concrete event sequence whose last change event carries
"hello world" displays exactly "hello world". -/
theorem controlled_input_witness :
    lastChangeValue
        [Event.inputChange "draft", Event.buttonClick, Event.inputChange "hello world",
          Event.buttonClick] = some "hello world" ∧
      (render (runEvents initialState
        [Event.inputChange "draft", Event.buttonClick, Event.inputChange "hello world",
          Event.buttonClick])).inputValue = "hello world" :=
  ⟨rfl, controlled_input.2 initialState _ "hello world" rfl⟩

/-- C9: clicking the Go button leaves the component state and the rendered
output unchanged; the handler's only effect is a console log. -/
theorem go_click_frame (s : AppState) :
    handleButtonClick s = s ∧
      render (handleButtonClick s) = render s ∧
      handleButtonClickEffects s =
        [Effect.consoleLog ("Current input text: " ++ s.inputText)] :=
  ⟨rfl, rfl, rfl⟩

/-- C10: on initial render, before any user event, `inputText` is the
empty string, the input box is empty, and the placeholder is shown. -/
theorem initial_render_empty :
    initialState.inputText = "" ∧
      (render initialState).inputValue = "" ∧
      (render initialState).showsPlaceholder = true ∧
      (render initialState).inputPlaceholder = "Describe your file." :=
  ⟨rfl, rfl, by decide, rfl⟩

end UI

namespace Engine

/-- Filtering out the records at a different path does not change a
lookup. -/
theorem find_filter_other (l : List FileRecord) (p q : String) (hpq : p ≠ q) :
    (l.filter (fun r => r.path != q)).find? (fun r => r.path == p) =
      l.find? (fun r => r.path == p) := by
  induction l with
  | nil => rfl
  | cons r rest ih =>
    by_cases hq : r.path = q
    · rw [List.filter_cons_of_neg (by simp [hq]),
        List.find?_cons_of_neg _ (by simp [hq]; exact fun h => hpq h.symm), ih]
    · rw [List.filter_cons_of_pos (by simp [hq])]
      by_cases hp : r.path = p
      · rw [List.find?_cons_of_pos _ (by simp [hp]), List.find?_cons_of_pos _ (by simp [hp])]
      · rw [List.find?_cons_of_neg _ (by simp [hp]), List.find?_cons_of_neg _ (by simp [hp]),
          ih]

/-- An upsert is found at its own path. -/
theorem find_upsert_same (st : Store) (r : FileRecord) (p : String) (h : r.path = p) :
    (st.upsert r).find p = some r := by
  unfold Store.find Store.upsert
  exact List.find?_cons_of_pos _ (by simp [h])

/-- An upsert leaves lookups at other paths unchanged. -/
theorem find_upsert_other (st : Store) (r : FileRecord) (p : String) (h : p ≠ r.path) :
    (st.upsert r).find p = st.find p := by
  unfold Store.find Store.upsert
  dsimp only
  rw [List.find?_cons_of_neg _ (by simp; exact fun hh => h hh.symm)]
  exact find_filter_other _ _ _ h

/-- A remove leaves lookups at other paths unchanged. -/
theorem find_remove_other (st : Store) (p q : String) (h : p ≠ q) :
    (st.remove q).find p = st.find p :=
  find_filter_other _ _ _ h

/-- Membership in the store after a sequence of removes. -/
theorem mem_foldl_remove (ps : List String) :
    ∀ (st : Store) (r : FileRecord),
      r ∈ (ps.foldl Store.remove st).records ↔
        r ∈ st.records ∧ ∀ q ∈ ps, r.path ≠ q := by
  induction ps with
  | nil => intro st r; simp
  | cons q ps ih =>
    intro st r
    rw [List.foldl_cons, ih]
    simp only [Store.remove, List.mem_filter, bne_iff_ne, ne_eq, List.mem_cons]
    constructor
    · rintro ⟨⟨hmem, hq⟩, hall⟩
      exact ⟨hmem, fun x hx => hx.elim (fun hxq => hxq ▸ hq) (hall x)⟩
    · rintro ⟨hmem, hall⟩
      exact ⟨⟨hmem, hall q (Or.inl rfl)⟩, fun x hx => hall x (Or.inr hx)⟩

/-- Removing a set of paths not containing `p` leaves the lookup at `p`
unchanged. -/
theorem find_foldl_remove_other (ps : List String) :
    ∀ (st : Store) (p : String), p ∉ ps →
      (ps.foldl Store.remove st).find p = st.find p := by
  induction ps with
  | nil => intro st p _; rfl
  | cons q ps ih =>
    intro st p hp
    rw [List.foldl_cons, ih _ _ (fun h => hp (List.mem_cons_of_mem _ h))]
    exact find_remove_other _ _ _ (fun h => hp (h ▸ List.mem_cons_self q ps))

/-- Characterisation of stale paths. -/
theorem mem_stalePaths (st : Store) (fs : List FsFile) (p : String) :
    p ∈ stalePaths st fs ↔
      ∃ r ∈ st.records, r.path = p ∧ pathListed fs p = false := by
  unfold stalePaths
  simp only [List.mem_map, List.mem_filter, Bool.not_eq_eq_eq_not, Bool.not_true]
  constructor
  · rintro ⟨r, ⟨hmem, hfa⟩, rfl⟩
    exact ⟨r, hmem, rfl, hfa⟩
  · rintro ⟨r, hmem, rfl, hfa⟩
    exact ⟨r, ⟨hmem, hfa⟩, rfl⟩

/-- A path still listed in the enumeration is never stale. -/
theorem not_mem_stalePaths_of_listed (st : Store) (fs : List FsFile) (p : String)
    (h : pathListed fs p = true) : p ∉ stalePaths st fs := by
  rw [mem_stalePaths]
  rintro ⟨r, _, rfl, hfalse⟩
  rw [h] at hfalse
  cases hfalse

/-- Pruning leaves lookups at listed paths unchanged. -/
theorem find_prune_listed (st : Store) (fs : List FsFile) (p : String)
    (h : pathListed fs p = true) : (prune st fs).find p = st.find p :=
  find_foldl_remove_other _ _ _ (not_mem_stalePaths_of_listed st fs p h)

/-- Pruning leaves fingerprint lookups at listed paths unchanged. -/
theorem get_fingerprint_prune_listed (st : Store) (fs : List FsFile) (p : String)
    (h : pathListed fs p = true) :
    (prune st fs).get_fingerprint p = st.get_fingerprint p := by
  unfold Store.get_fingerprint
  rw [find_prune_listed st fs p h]

/-- After pruning, every surviving record's path is listed in the
enumeration. -/
theorem prune_records_listed (st : Store) (fs : List FsFile) :
    ∀ r ∈ (prune st fs).records, pathListed fs r.path = true := by
  intro r hr
  have hm := (mem_foldl_remove (stalePaths st fs) st r).1 hr
  by_contra hfalse
  have hf : pathListed fs r.path = false := by
    revert hfalse
    cases pathListed fs r.path <;> simp
  exact hm.2 r.path ((mem_stalePaths st fs r.path).2 ⟨r, hm.1, rfl, hf⟩) rfl

/-- Pruning a store whose records are all listed is the identity. -/
theorem prune_of_all_listed (st : Store) (fs : List FsFile)
    (h : ∀ r ∈ st.records, pathListed fs r.path = true) : prune st fs = st := by
  have hstale : stalePaths st fs = [] := by
    unfold stalePaths
    rw [List.map_eq_nil_iff, List.filter_eq_nil_iff]
    intro r hr
    simp [h r hr]
  rw [prune, hstale]
  rfl

end Engine

namespace Engine

/-- A per-file indexing step either leaves the store untouched or upserts
the freshly embedded record for that file. -/
theorem indexFile_store_cases (extract : FsFile → Option String)
    (embed : String → Option (List Int)) (now : Nat) (st : Store) (f : FsFile) :
    (indexFile extract embed now st f).1 = st ∨
      ∃ text vec, extract f = some text ∧ embed text = some vec ∧
        (indexFile extract embed now st f).1 = st.upsert (mkRecord f text vec now) := by
  unfold indexFile
  split
  · exact Or.inl rfl
  · cases ht : extract f with
    | none => exact Or.inl (by simp only [ht])
    | some text =>
      cases hv : embed text with
      | none => exact Or.inl (by simp only [ht, hv])
      | some vec => exact Or.inr ⟨text, vec, rfl, hv, by simp only [ht, hv]⟩

/-- A per-file indexing step leaves lookups at other paths unchanged. -/
theorem indexFile_find_other (extract : FsFile → Option String)
    (embed : String → Option (List Int)) (now : Nat) (st : Store) (f : FsFile)
    (p : String) (h : p ≠ f.path) :
    ((indexFile extract embed now st f).1).find p = st.find p := by
  rcases indexFile_store_cases extract embed now st f with heq | ⟨t, v, _, _, heq⟩
  · rw [heq]
  · rw [heq]
    exact find_upsert_other _ _ _ h

/-- A per-file indexing step on a file whose extraction and embedding
succeed leaves the store holding that file's current fingerprint. -/
theorem indexFile_fp_self (extract : FsFile → Option String)
    (embed : String → Option (List Int)) (now : Nat) (st : Store) (f : FsFile)
    (hs : succeeds extract embed f) :
    ((indexFile extract embed now st f).1).get_fingerprint f.path =
      some (fingerprint f) := by
  obtain ⟨t, v, ht, hv⟩ := hs
  unfold indexFile
  split
  · next h => exact h
  · simp only [ht, hv]
    show (st.upsert (mkRecord f t v now)).get_fingerprint f.path = _
    unfold Store.get_fingerprint
    rw [find_upsert_same st (mkRecord f t v now) f.path rfl]
    rfl

/-- A per-file indexing step on a file whose extraction or embedding fails
leaves the store untouched. -/
theorem indexFile_unchanged_of_fails (extract : FsFile → Option String)
    (embed : String → Option (List Int)) (now : Nat) (st : Store) (f : FsFile)
    (h : ¬ succeeds extract embed f) :
    (indexFile extract embed now st f).1 = st := by
  rcases indexFile_store_cases extract embed now st f with heq | ⟨t, v, ht, hv, _⟩
  · exact heq
  · exact absurd ⟨t, v, ht, hv⟩ h

/-- The per-file loop leaves lookups unchanged at paths no enumerated file
has. -/
theorem indexFiles_find_other (extract : FsFile → Option String)
    (embed : String → Option (List Int)) (now : Nat) (fs : List FsFile) :
    ∀ (st : Store) (p : String), (∀ f ∈ fs, f.path ≠ p) →
      ((indexFiles extract embed now st fs).1).find p = st.find p := by
  induction fs with
  | nil => intro st p _; rfl
  | cons f rest ih =>
    intro st p h
    show ((indexFiles extract embed now (indexFile extract embed now st f).1 rest).1).find p
        = st.find p
    rw [ih _ _ (fun g hg => h g (List.mem_cons_of_mem _ hg))]
    exact indexFile_find_other _ _ _ _ _ _ (Ne.symm (h f (List.mem_cons_self f rest)))

/-- After the per-file loop, every enumerated file whose extraction and
embedding succeed has its current fingerprint in the store. -/
theorem indexFiles_fp_of_succeeds (extract : FsFile → Option String)
    (embed : String → Option (List Int)) (now : Nat) (fs : List FsFile) :
    ∀ st : Store, pathsNodup fs →
      ∀ g ∈ fs, succeeds extract embed g →
        ((indexFiles extract embed now st fs).1).get_fingerprint g.path =
          some (fingerprint g) := by
  induction fs with
  | nil => intro st _ g hg; cases hg
  | cons f rest ih =>
    intro st hnd g hg hs
    rw [pathsNodup, List.map_cons, List.nodup_cons] at hnd
    rcases List.mem_cons.1 hg with rfl | hg'
    · show ((indexFiles extract embed now (indexFile extract embed now st g).1 rest).1
          ).get_fingerprint g.path = _
      have hpres : ∀ f' ∈ rest, f'.path ≠ g.path := by
        intro f' hf' he
        exact hnd.1 (he ▸ List.mem_map_of_mem (fun x => x.path) hf')
      unfold Store.get_fingerprint
      rw [indexFiles_find_other extract embed now rest _ g.path hpres]
      have := indexFile_fp_self extract embed now st g hs
      unfold Store.get_fingerprint at this
      exact this
    · exact ih _ hnd.2 g hg' hs

/-- Indexing a tree whose files all carry their stored fingerprints is a
no-op with no embedding calls. -/
theorem indexFiles_skip (extract : FsFile → Option String)
    (embed : String → Option (List Int)) (now : Nat) (fs : List FsFile) :
    ∀ st : Store, (∀ f ∈ fs, st.get_fingerprint f.path = some (fingerprint f)) →
      indexFiles extract embed now st fs = (st, []) := by
  induction fs with
  | nil => intro st _; rfl
  | cons f rest ih =>
    intro st h
    have h1 : indexFile extract embed now st f = (st, []) := by
      unfold indexFile
      rw [if_pos (h f (List.mem_cons_self f rest))]
    simp only [indexFiles, h1]
    rw [ih st (fun g hg => h g (List.mem_cons_of_mem _ hg))]
    rfl

/-- Two files of a duplicate-free enumeration with the same path are the
same file. -/
theorem eq_of_path_eq (fs : List FsFile) (hnd : pathsNodup fs) {f g : FsFile}
    (hf : f ∈ fs) (hg : g ∈ fs) (h : f.path = g.path) : f = g :=
  List.inj_on_of_nodup_map hnd hf hg h

/-- The per-file loop leaves the lookup at a path unchanged when every
enumerated file at that path fails extraction or embedding. -/
theorem indexFiles_find_failing (extract : FsFile → Option String)
    (embed : String → Option (List Int)) (now : Nat) (fs : List FsFile) :
    ∀ (st : Store) (p : String),
      (∀ f ∈ fs, f.path = p → ¬ succeeds extract embed f) →
      ((indexFiles extract embed now st fs).1).find p = st.find p := by
  induction fs with
  | nil => intro st p _; rfl
  | cons f rest ih =>
    intro st p h
    show ((indexFiles extract embed now (indexFile extract embed now st f).1 rest).1).find p
        = st.find p
    rw [ih _ _ (fun g hg => h g (List.mem_cons_of_mem _ hg))]
    by_cases hp : f.path = p
    · rw [indexFile_unchanged_of_fails _ _ _ _ _ (h f (List.mem_cons_self f rest) hp)]
    · exact indexFile_find_other _ _ _ _ _ _ (fun he => hp he.symm)

/-- A member of the enumeration has a listed path. -/
theorem pathListed_of_mem {fs : List FsFile} {f : FsFile} (hf : f ∈ fs) :
    pathListed fs f.path = true := by
  unfold pathListed
  rw [List.any_eq_true]
  exact ⟨f, hf, by simp⟩

/-- C5: the IndexVersion is a monotonically increasing counter: every
committed mutation (upsert or remove) strictly increases it, and across
any sequence of committed mutations it never decreases. -/
theorem index_version_monotonic :
    (∀ (st : Store) (r : FileRecord), st.version < (st.upsert r).version) ∧
      (∀ (st : Store) (p : String), st.version < (st.remove p).version) ∧
      ∀ (st : Store) (ops : List StoreOp), st.version ≤ (ops.foldl applyOp st).version := by
  refine ⟨fun st r => Nat.lt_succ_self _, fun st p => Nat.lt_succ_self _, ?_⟩
  intro st ops
  induction ops generalizing st with
  | nil => exact le_refl _
  | cons op ops ih =>
    rw [List.foldl_cons]
    refine le_trans ?_ (ih (applyOp st op))
    cases op with
    | upsert r => exact Nat.le_succ _
    | remove p => exact Nat.le_succ _

end Engine

namespace Engine

/-- C3: with no filesystem change in between, a second indexing pass over
the same enumeration leaves the store (records and IndexVersion) exactly
as the first pass left it and makes no embedding calls, for any starting
store, provided the enumeration lists each path once and extraction and
embedding succeed for the enumerated files. -/
theorem indexing_idempotent (extract : FsFile → Option String)
    (embed : String → Option (List Int)) (n1 n2 : Nat) (st0 : Store) (fs : List FsFile)
    (hnd : pathsNodup fs) (hok : ∀ f ∈ fs, succeeds extract embed f) :
    (indexPass extract embed n2 (indexPass extract embed n1 st0 fs).1 fs).1 =
        (indexPass extract embed n1 st0 fs).1 ∧
      (indexPass extract embed n2 (indexPass extract embed n1 st0 fs).1 fs).2 = [] := by
  set st1 := (indexFiles extract embed n1 st0 fs).1 with hst1
  have hpass1 : (indexPass extract embed n1 st0 fs).1 = prune st1 fs := rfl
  have hfp : ∀ f ∈ fs, (prune st1 fs).get_fingerprint f.path = some (fingerprint f) := by
    intro f hf
    rw [get_fingerprint_prune_listed _ _ _ (pathListed_of_mem hf)]
    rw [hst1]
    exact indexFiles_fp_of_succeeds extract embed n1 fs st0 hnd f hf (hok f hf)
  have h2 : indexFiles extract embed n2 (prune st1 fs) fs = (prune st1 fs, []) :=
    indexFiles_skip extract embed n2 fs _ hfp
  have h3 : prune (prune st1 fs) fs = prune st1 fs :=
    prune_of_all_listed _ _ (prune_records_listed st1 fs)
  rw [hpass1]
  constructor
  · show prune (indexFiles extract embed n2 (prune st1 fs) fs).1 fs = prune st1 fs
    rw [h2]
    exact h3
  · show (indexFiles extract embed n2 (prune st1 fs) fs).2 = []
    rw [h2]

/-- C3 witness: for the concrete two-file tree, two consecutive passes at
different times leave the store of the first pass unchanged with no
embedding calls on the second pass. -/
theorem indexing_idempotent_witness :
    pathsNodup [fileA, fileB] ∧
      (∀ f ∈ [fileA, fileB], succeeds extractC embedC f) ∧
      (indexPass extractC embedC 9 (indexPass extractC embedC 5 Store.empty [fileA, fileB]).1
          [fileA, fileB]).1 =
        (indexPass extractC embedC 5 Store.empty [fileA, fileB]).1 ∧
      (indexPass extractC embedC 9 (indexPass extractC embedC 5 Store.empty [fileA, fileB]).1
          [fileA, fileB]).2 = [] := by
  have hnd : pathsNodup [fileA, fileB] := by
    unfold pathsNodup
    decide
  have hok : ∀ f ∈ [fileA, fileB], succeeds extractC embedC f := by
    intro f hf
    rcases List.mem_cons.1 hf with rfl | hf'
    · exact ⟨"aaa", [3], by decide, by decide⟩
    · rcases List.mem_cons.1 hf' with rfl | hf''
      · exact ⟨"bbbb", [4], by decide, by decide⟩
      · cases hf''
  exact ⟨hnd, hok, (indexing_idempotent extractC embedC 5 9 Store.empty [fileA, fileB] hnd hok).1,
    (indexing_idempotent extractC embedC 5 9 Store.empty [fileA, fileB] hnd hok).2⟩

/-- C6: when extraction or embedding fails for one file of the pass while
every other enumerated file succeeds, the pass still completes: every
other file ends up indexed with its current fingerprint, and the failing
file's previous record (if any) is left untouched. -/
theorem partial_failure_contained (extract : FsFile → Option String)
    (embed : String → Option (List Int)) (now : Nat) (st0 : Store)
    (fs : List FsFile) (fbad : FsFile) (hnd : pathsNodup fs) (hmem : fbad ∈ fs)
    (hfail : ¬ succeeds extract embed fbad)
    (hok : ∀ g ∈ fs, g.path ≠ fbad.path → succeeds extract embed g) :
    (∀ g ∈ fs, g.path ≠ fbad.path →
        ((indexPass extract embed now st0 fs).1).get_fingerprint g.path =
          some (fingerprint g)) ∧
      ((indexPass extract embed now st0 fs).1).find fbad.path = st0.find fbad.path := by
  constructor
  · intro g hg hgp
    show (prune (indexFiles extract embed now st0 fs).1 fs).get_fingerprint g.path = _
    rw [get_fingerprint_prune_listed _ _ _ (pathListed_of_mem hg)]
    exact indexFiles_fp_of_succeeds extract embed now fs st0 hnd g hg (hok g hg hgp)
  · show (prune (indexFiles extract embed now st0 fs).1 fs).find fbad.path = _
    rw [find_prune_listed _ _ _ (pathListed_of_mem hmem)]
    apply indexFiles_find_failing
    intro f hf hfp
    rw [eq_of_path_eq fs hnd hf hmem hfp]
    exact hfail

/-- C6 witness: in a concrete three-file pass where exactly the middle
file fails extraction, the two other files are freshly indexed and the
failing file's record lookup is unchanged from the starting store. -/
theorem partial_failure_contained_witness :
    pathsNodup [fileA, fileBad, fileB] ∧
      ¬ succeeds extractC embedC fileBad ∧
      (∀ g ∈ [fileA, fileBad, fileB], g.path ≠ fileBad.path →
          ((indexPass extractC embedC 3 Store.empty [fileA, fileBad, fileB]).1
            ).get_fingerprint g.path = some (fingerprint g)) ∧
      ((indexPass extractC embedC 3 Store.empty [fileA, fileBad, fileB]).1).find fileBad.path =
        Store.empty.find fileBad.path := by
  have hnd : pathsNodup [fileA, fileBad, fileB] := by
    unfold pathsNodup
    decide
  have hmem : fileBad ∈ [fileA, fileBad, fileB] := by decide
  have hfail : ¬ succeeds extractC embedC fileBad := by
    rintro ⟨t, v, ht, -⟩
    simp [extractC, fileBad] at ht
  have hok : ∀ g ∈ [fileA, fileBad, fileB], g.path ≠ fileBad.path →
      succeeds extractC embedC g := by
    intro g hg hne
    rcases List.mem_cons.1 hg with rfl | hg'
    · exact ⟨"aaa", [3], by decide, by decide⟩
    · rcases List.mem_cons.1 hg' with rfl | hg''
      · exact absurd rfl hne
      · rcases List.mem_cons.1 hg'' with rfl | hg'''
        · exact ⟨"bbbb", [4], by decide, by decide⟩
        · cases hg'''
  have hmain := partial_failure_contained extractC embedC 3 Store.empty
    [fileA, fileBad, fileB] fileBad hnd hmem hfail hok
  exact ⟨hnd, hfail, hmain.1, hmain.2⟩

end Engine

namespace Engine

/-- Evaluation of search on the empty query. -/
theorem search_empty_eval (embed : String → Option (List Int))
    (score : List Int → List Int → ℚ) (normalize : String → String) (topK : Nat)
    (c : Cache) (st : Store) (fl : Filters) :
    search embed score normalize topK c st "" fl = (SearchOutcome.invalidQuery, c) := by
  simp [search]

/-- C2: a search invocation with empty query text is rejected with
InvalidQuery and the cache is returned untouched, uniformly in the
embedding service, the similarity metric, the cache and the store: the
result does not depend on them, so no network access and no store access
is performed before rejecting. -/
theorem empty_query_invalid (embed : String → Option (List Int))
    (score : List Int → List Int → ℚ) (normalize : String → String) (topK : Nat)
    (c : Cache) (st : Store) (fl : Filters) :
    search embed score normalize topK c st "" fl = (SearchOutcome.invalidQuery, c) :=
  search_empty_eval embed score normalize topK c st fl

/-- C7: on the store with records of 100, 10_000 and 1_000_000 bytes, the
max_size=50_000 filter keeps exactly the 100-byte and 10_000-byte records
as search candidates and excludes the 1_000_000-byte record. -/
theorem filter_max_size_correct :
    searchCandidates sizeStore maxSizeFilter = [rec100, rec10k] ∧
      matchesFilters maxSizeFilter rec1M = false := by
  constructor <;> rfl

/-- The ranked, truncated result list is ordered by the ranking order. -/
theorem rankResults_pairwise (topK : Nat) (l : List ScoredRecord) :
    List.Pairwise rankedBefore (rankResults topK l) :=
  List.Pairwise.sublist (List.take_sublist _ _) (List.sorted_insertionSort rankedBefore l)

/-- A freshly written cache entry is found. -/
theorem cacheGet_put_self (c : Cache) (k : CacheKey) (rs : List ScoredRecord) :
    cacheGet (cachePut c k rs) k = some rs := by
  unfold cacheGet cachePut
  rw [List.find?_cons_of_pos _ (by simp)]
  rfl

/-- A cache hit comes from a cache entry. -/
theorem cacheGet_mem (c : Cache) (k : CacheKey) (rs : List ScoredRecord)
    (h : cacheGet c k = some rs) : ∃ kv ∈ c, kv.2 = rs := by
  unfold cacheGet at h
  rcases Option.map_eq_some'.1 h with ⟨kv, hfind, hsnd⟩
  exact ⟨kv, List.mem_of_find?_eq_some hfind, hsnd⟩

end Engine

namespace Engine

/-- Evaluation of search on a cache hit. -/
theorem search_hit (embed : String → Option (List Int)) (score : List Int → List Int → ℚ)
    (normalize : String → String) (topK : Nat) (c : Cache) (st : Store) (q : String)
    (fl : Filters) (rs : List ScoredRecord) (hq : ¬ q = "")
    (hc : cacheGet c ⟨normalize q, fl, st.version⟩ = some rs) :
    search embed score normalize topK c st q fl = (SearchOutcome.results rs, c) := by
  unfold search
  rw [if_neg hq]
  simp only [hc]

/-- Evaluation of search when the embedding service is unavailable. -/
theorem search_unavailable (embed : String → Option (List Int))
    (score : List Int → List Int → ℚ) (normalize : String → String) (topK : Nat)
    (c : Cache) (st : Store) (q : String) (fl : Filters) (hq : ¬ q = "")
    (hc : cacheGet c ⟨normalize q, fl, st.version⟩ = none) (he : embed q = none) :
    search embed score normalize topK c st q fl = (SearchOutcome.serviceUnavailable, c) := by
  unfold search
  rw [if_neg hq]
  simp only [hc, he]

/-- Evaluation of search on a cache miss with a live embedding service. -/
theorem search_miss (embed : String → Option (List Int)) (score : List Int → List Int → ℚ)
    (normalize : String → String) (topK : Nat) (c : Cache) (st : Store) (q : String)
    (fl : Filters) (qv : List Int) (hq : ¬ q = "")
    (hc : cacheGet c ⟨normalize q, fl, st.version⟩ = none) (he : embed q = some qv) :
    search embed score normalize topK c st q fl =
      (SearchOutcome.results
          (rankResults topK ((searchCandidates st fl).map (scoreRecord score qv))),
        cachePut c ⟨normalize q, fl, st.version⟩
          (rankResults topK ((searchCandidates st fl).map (scoreRecord score qv)))) := by
  unfold search
  rw [if_neg hq]
  simp only [hc, he]

/-- C4: for a fixed store snapshot, repeating a search with the same query
text and the same filters (threading the cache state of the first call)
returns the identical outcome, and any returned result list is ordered by
score descending with ties broken by more-recently-modified first and then
by path lexicographic order (the order `rankedBefore`), provided every
previously cached result list is so ordered. -/
theorem ranking_deterministic (embed : String → Option (List Int))
    (score : List Int → List Int → ℚ) (normalize : String → String) (topK : Nat)
    (c : Cache) (st : Store) (q : String) (fl : Filters) (hwf : CacheWF c) :
    (search embed score normalize topK
        (search embed score normalize topK c st q fl).2 st q fl).1 =
      (search embed score normalize topK c st q fl).1 ∧
      ∀ rs, (search embed score normalize topK c st q fl).1 = SearchOutcome.results rs →
        List.Pairwise rankedBefore rs := by
  by_cases hq : q = ""
  · subst hq
    constructor
    · simp [search_empty_eval]
    · intro rs h
      rw [search_empty_eval] at h
      simp at h
  · cases hc : cacheGet c ⟨normalize q, fl, st.version⟩ with
    | some rs0 =>
      have h1 := search_hit embed score normalize topK c st q fl rs0 hq hc
      constructor
      · rw [h1]
        show (search embed score normalize topK c st q fl).1 = SearchOutcome.results rs0
        rw [h1]
      · intro rs h
        rw [h1] at h
        simp only at h
        obtain ⟨kv, hkv, hsnd⟩ := cacheGet_mem c _ rs0 hc
        have hpw := hwf kv hkv
        rw [hsnd] at hpw
        rw [SearchOutcome.results.injEq] at h
        rw [← h]
        exact hpw
    | none =>
      cases he : embed q with
      | none =>
        have h1 := search_unavailable embed score normalize topK c st q fl hq hc he
        constructor
        · rw [h1]
          show (search embed score normalize topK c st q fl).1 =
            SearchOutcome.serviceUnavailable
          rw [h1]
        · intro rs h
          rw [h1] at h
          simp at h
      | some qv =>
        have h1 := search_miss embed score normalize topK c st q fl qv hq hc he
        have h2 := search_hit embed score normalize topK
          (cachePut c ⟨normalize q, fl, st.version⟩
            (rankResults topK ((searchCandidates st fl).map (scoreRecord score qv))))
          st q fl
          (rankResults topK ((searchCandidates st fl).map (scoreRecord score qv))) hq
          (cacheGet_put_self c ⟨normalize q, fl, st.version⟩
            (rankResults topK ((searchCandidates st fl).map (scoreRecord score qv))))
        constructor
        · rw [h1]
          show (search embed score normalize topK
              (cachePut c ⟨normalize q, fl, st.version⟩
                (rankResults topK ((searchCandidates st fl).map (scoreRecord score qv))))
              st q fl).1 =
            SearchOutcome.results
              (rankResults topK ((searchCandidates st fl).map (scoreRecord score qv)))
          rw [h2]
        · intro rs h
          rw [h1] at h
          simp only at h
          rw [SearchOutcome.results.injEq] at h
          rw [← h]
          exact rankResults_pairwise _ _

/-- C4 witness: on the concrete size store with an empty cache, the
repeated concrete query returns the identical outcome and any returned
list is ordered. -/
theorem ranking_deterministic_witness :
    CacheWF ([] : Cache) ∧
      ((search embedC scoreC id 10
          (search embedC scoreC id 10 [] sizeStore "find documents" maxSizeFilter).2
          sizeStore "find documents" maxSizeFilter).1 =
        (search embedC scoreC id 10 [] sizeStore "find documents" maxSizeFilter).1 ∧
        ∀ rs, (search embedC scoreC id 10 [] sizeStore "find documents" maxSizeFilter).1 =
            SearchOutcome.results rs → List.Pairwise rankedBefore rs) := by
  have hwf : CacheWF ([] : Cache) := by
    intro kv hkv
    cases hkv
  exact ⟨hwf, ranking_deterministic embedC scoreC id 10 [] sizeStore "find documents"
    maxSizeFilter hwf⟩

end Engine
